import Mathlib

/-!
Verification of the apps.huny.dev catalog component.

JavaScript strings are modelled as lists of characters (`List Char`);
`charCodeAt` is modelled by `Char.toNat` (exact for BMP characters, which
covers every string the program manipulates). The functions below are
shallow embeddings of the like-named functions of the source file.
-/

/-- Model of the JS whitespace class used by trim and the \s regex class. -/
def jsWhite (c : Char) : Bool := c.isWhitespace

/-- Model of JS String.prototype.trim: drop whitespace from both ends. -/
def trimJ (l : List Char) : List Char :=
  ((l.dropWhile jsWhite).reverse.dropWhile jsWhite).reverse

/-- Model of JS String.prototype.toLowerCase (ASCII case folding suffices
for every comparison the program performs). -/
def toLowerJ (l : List Char) : List Char := l.map Char.toLower

/-- Model of JS String.prototype.includes: substring occurrence test. -/
def containsSub (q : List Char) : List Char → Bool
  | [] => q.isEmpty
  | hay@(_ :: t) => q.isPrefixOf hay || containsSub q t

/-- Model of JS String.prototype.split with separator "." — empty pieces
are kept, and the result always has at least one piece. -/
def splitOnDot : List Char → List (List Char)
  | [] => [[]]
  | c :: t =>
    if c = '.' then [] :: splitOnDot t
    else
      match splitOnDot t with
      | [] => [[c]]
      | h :: r => (c :: h) :: r

/-- Three-way comparison on natural numbers, the primitive under the
string comparators below. -/
def natCmp (a b : Nat) : Ordering :=
  if a < b then .lt else if b < a then .gt else .eq

/-- Model of plain localeCompare (no options), as used for the grouped-view
key ordering and the category options: code-point lexicographic order. -/
def plainCmp : List Char → List Char → Ordering
  | [], [] => .eq
  | [], _ :: _ => .lt
  | _ :: _, [] => .gt
  | a :: as, b :: bs =>
    match natCmp a.toNat b.toNat with
    | .eq => plainCmp as bs
    | o => o

/-- Numeric value of a digit run, per numeric-aware collation. -/
def digitsToNat (l : List Char) : Nat :=
  l.foldl (fun n c => n * 10 + (c.toNat - 48)) 0

/-- Model of localeCompare with the numeric collation option, as used by the
two display sort comparators: maximal digit runs compare by numeric value,
other characters compare by code point. The fuel argument is a recursion
bound; the sum of the lengths always suffices because each step consumes at
least one character from each side it recurses into. -/
def numericCmpFuel : Nat → List Char → List Char → Ordering
  | _, [], [] => .eq
  | _, [], _ :: _ => .lt
  | _, _ :: _, [] => .gt
  | 0, _ :: _, _ :: _ => .eq
  | fuel + 1, a :: as, b :: bs =>
    if a.isDigit && b.isDigit then
      match natCmp (digitsToNat ((a :: as).takeWhile Char.isDigit))
                   (digitsToNat ((b :: bs).takeWhile Char.isDigit)) with
      | .eq => numericCmpFuel fuel (as.dropWhile Char.isDigit) (bs.dropWhile Char.isDigit)
      | o => o
    else
      match natCmp a.toNat b.toNat with
      | .eq => numericCmpFuel fuel as bs
      | o => o

/-- The numeric-aware comparator at its sufficient fuel bound. -/
def numericCmp (a b : List Char) : Ordering :=
  numericCmpFuel (a.length + b.length) a b

/-- Stable insertion of an element into a comparator-sorted list: the new
element goes in front of the first element it does not strictly exceed.
Together with sortByCmp this models the (stable) JS Array.prototype.sort. -/
def insertSorted {α : Type} (cmp : α → α → Ordering) (a : α) : List α → List α
  | [] => [a]
  | b :: bs => if cmp a b = .gt then b :: insertSorted cmp a bs else a :: b :: bs

/-- Model of JS Array.prototype.sort with a comparator (stable). -/
def sortByCmp {α : Type} (cmp : α → α → Ordering) (l : List α) : List α :=
  l.foldr (insertSorted cmp) []

/-- Modelled from the spec: the platform WHATWG URL parser invoked by
getHostname (new URL(url).hostname) is not part of this repository's
sources. Per the spec, parsing an absolute URL of the form
scheme://host[:port][/path...] yields the host component, and anything
without a valid scheme separator fails. The Boolean argument records
whether at least one scheme character has been read. -/
def schemeRest (seen : Bool) : List Char → Option (List Char)
  | [] => none
  | c :: rest =>
    if c = ':' then
      if seen then
        match rest with
        | '/' :: '/' :: r => some r
        | _ => none
      else none
    else if c = '/' || c = '?' || c = '#' then none
    else schemeRest true rest

/-- Modelled from the spec: hostname extraction of the platform URL parser.
Returns none (parse failure) when the input has no scheme://, or when the
authority part has an empty host. -/
def parseHostname (url : List Char) : Option (List Char) :=
  match schemeRest false url with
  | none => none
  | some r =>
    let h := r.takeWhile (fun c => !(c = '/' || c = ':' || c = '?' || c = '#'))
    if h = [] then none else some h

/-- Embedding of getHostname: the parsed hostname, or the raw input string
when URL parsing fails. -/
def getHostname (url : List Char) : List Char :=
  (parseHostname url).getD url

/-- The configured root domain suffix of the deployment. -/
def rootSuffix : List Char := "huny.dev".data

/-- Embedding of getSubdomainForSort: first label when the host ends with
the root suffix and has at least three dot-separated labels, otherwise the
full host. -/
def getSubdomainForSort (url : List Char) : List Char :=
  let host := getHostname url
  if rootSuffix.isSuffixOf host then
    let parts := splitOnDot host
    if 3 ≤ parts.length then parts.headD [] else host
  else host

/-- Separator class of the regex \s+|\.|- used by initialsFrom. -/
def sepChar (c : Char) : Bool := jsWhite c || c = '.' || c = '-'

/-- Model of JS String.prototype.split with the regex \s+|\.|-
(greedy whitespace runs, single dots, single hyphens); the accumulator
holds the current piece reversed. The fuel argument is a recursion bound;
the length of the remaining input always suffices because every step
consumes at least one character. -/
def splitSepGoFuel : Nat → List Char → List Char → List (List Char)
  | _, acc, [] => [acc.reverse]
  | 0, acc, _ :: _ => [acc.reverse]
  | fuel + 1, acc, c :: t =>
    if jsWhite c then acc.reverse :: splitSepGoFuel fuel [] (t.dropWhile jsWhite)
    else if c = '.' || c = '-' then acc.reverse :: splitSepGoFuel fuel [] t
    else splitSepGoFuel fuel (c :: acc) t

/-- The separator split at its sufficient fuel bound. -/
def splitSepGo (acc : List Char) (l : List Char) : List (List Char) :=
  splitSepGoFuel l.length acc l

/-- Embedding of initialsFrom: trim, sentinel "?" on empty, split on the
separator regex, drop empty tokens, first character of the first two
tokens, uppercased. -/
def initialsFrom (text : List Char) : List Char :=
  let t := trimJ text
  if t = [] then "?".data
  else
    let parts := (splitSepGo [] t).filter (fun p => !p.isEmpty)
    let first := ((parts.getD 0 []).take 1)
    let second := ((parts.getD 1 []).take 1)
    (first ++ second).map Char.toUpper

/-- The spec's reading of the tokenizer: maximal runs of non-separator
characters (split on runs of whitespace, ".", or "-", dropping empty
tokens). Stated from the spec's words to be compared with the code's
regex split. -/
def wordsSep : List Char → List (List Char)
  | [] => []
  | c :: t =>
    if sepChar c then wordsSep t
    else (c :: t.takeWhile (fun x => !sepChar x)) :: wordsSep (t.dropWhile (fun x => !sepChar x))
  termination_by l => l.length
  decreasing_by
    · simp only [List.length_cons]; omega
    · have : (t.dropWhile fun x => !sepChar x).length ≤ t.length := by
        induction t with
        | nil => simp [List.dropWhile]
        | cons x xs ih =>
          by_cases hx : sepChar x
          · simp [List.dropWhile, hx]
          · simp [List.dropWhile, hx]; omega
      simp only [List.length_cons]; omega

/-- Embedding of hashToHsl: 32-bit accumulating hash (h * 31 + code,
truncated to 32 bits by the unsigned shift), hue = hash mod 360,
saturation 65, lightness 50. -/
def hashToHsl (s : List Char) : Nat × Nat × Nat :=
  let h := s.foldl (fun h c => (h * 31 + c.toNat) % 2 ^ 32) 0
  (h % 360, 65, 50)

/-- Embedding of the AppItem record type. -/
structure AppItem where
  title : List Char
  url : List Char
  description : Option (List Char)
  category : Option (List Char)
  thumbnail : Option (List Char)
deriving DecidableEq, Repr

/-- The sentinel category for records without a category. -/
def UNCATEGORIZED : List Char := "그룹없음".data

/-- The sentinel value of the category filter that passes every record. -/
def ALL_CATEGORIES : List Char := "전체".data

/-- CategoryKey of a record: its category, or the uncategorized sentinel. -/
def catKeyRaw (a : AppItem) : List Char := a.category.getD UNCATEGORIZED

/-- Embedding of the two sort modes. -/
inductive SortMode
  | name
  | category
deriving DecidableEq, Repr

/-- Embedding of FALLBACK_APPS, the built-in catalog. -/
def FALLBACK_APPS : List AppItem :=
  [ ⟨"Studio".data, "https://studio.huny.dev".data,
      some "내 웹앱 포털(미리보기)".data, some "포털".data, none⟩,
    ⟨"Sites".data, "https://sites.huny.dev".data,
      some "도메인 링크 & 설명 집합".data, some "도구".data, none⟩,
    ⟨"TTS Lab".data, "https://tts.huny.dev".data,
      some "텍스트-음성 합성 관련 실험실".data, some "AI / 오디오".data, none⟩,
    ⟨"VC Demo".data, "https://vc.huny.dev".data,
      some "Voice Conversion 데모".data, some "AI / 오디오".data, none⟩,
    ⟨"Docs".data, "https://docs.huny.dev".data,
      some "문서/메모 더미".data, some "문서".data, none⟩,
    ⟨"Playground".data, "https://lab.huny.dev".data,
      some "각종 실험".data, none, none⟩ ]

/-- The searchable haystack of a record: title, description (empty when
absent), raw URL, derived hostname and derived sort key, joined by
newlines, exactly as the filter callback builds it. -/
def queryHay (a : AppItem) : List Char :=
  List.intercalate ['\n']
    [a.title, a.description.getD [], a.url, getHostname a.url, getSubdomainForSort a.url]

/-- Embedding of the filter callback: the text predicate (trimmed,
lowercased query empty, or substring of the lowercased haystack) and the
category predicate (filter equals the all-sentinel, or lowercased equality
with the CategoryKey). -/
def recordPasses (query catFilter : List Char) (a : AppItem) : Bool :=
  let q := toLowerJ (trimJ query)
  let hay := toLowerJ (queryHay a)
  let cat := toLowerJ (catKeyRaw a)
  let passQuery : Bool := if q = [] then true else containsSub q hay
  let passCat : Bool := if catFilter = ALL_CATEGORIES then true
                        else decide (cat = toLowerJ catFilter)
  passQuery && passCat

/-- Embedding of the Filtered stage of the pipeline. -/
def filteredList (apps : List AppItem) (query catFilter : List Char) : List AppItem :=
  (apps).filter (recordPasses query catFilter)

/-- The name-mode comparator: numeric localeCompare of the lowercased
sort keys. -/
def nameCmp (a b : AppItem) : Ordering :=
  numericCmp (toLowerJ (getSubdomainForSort a.url)) (toLowerJ (getSubdomainForSort b.url))

/-- The category-then-name comparator: numeric localeCompare of the
lowercased CategoryKeys when those strings differ, otherwise the name
comparator. -/
def categoryNameCmp (a b : AppItem) : Ordering :=
  let ca := toLowerJ (catKeyRaw a)
  let cb := toLowerJ (catKeyRaw b)
  if ca ≠ cb then numericCmp ca cb else nameCmp a b

/-- Embedding of the normalized (filtered and sorted) sequence. -/
def normalizedList (apps : List AppItem) (query catFilter : List Char) : SortMode → List AppItem
  | .name => sortByCmp nameCmp (filteredList apps query catFilter)
  | .category => sortByCmp categoryNameCmp (filteredList apps query catFilter)

/-- First-occurrence deduplication, the model of iterating a JS Set or the
keys of a JS Map built by insertion. -/
def firstDedup {α : Type} [DecidableEq α] : List α → List α
  | [] => []
  | a :: t => a :: firstDedup (t.filter (fun x => x ≠ a))
  termination_by l => l.length
  decreasing_by
    simp only [List.length_cons]
    exact Nat.lt_succ_of_le (List.length_filter_le _ _)

/-- Embedding of the categories memo: the all-sentinel followed by the
distinct CategoryKeys of the whole catalog, sorted with the plain
comparator. -/
def categories (apps : List AppItem) : List (List Char) :=
  ALL_CATEGORIES :: sortByCmp plainCmp (firstDedup (apps.map catKeyRaw))

/-- One step of building the grouping map: push the record onto the bucket
of its key, creating the bucket at the end on first sight (JS Map
insertion-order semantics). -/
def insertGroup (k : List Char) (a : AppItem) :
    List (List Char × List AppItem) → List (List Char × List AppItem)
  | [] => [(k, [a])]
  | (k', xs) :: rest =>
    if k' = k then (k', xs ++ [a]) :: rest else (k', xs) :: insertGroup k a rest

/-- The grouping map in insertion order, built by folding the normalized
sequence. -/
def groupedPairs (l : List AppItem) : List (List Char × List AppItem) :=
  l.foldl (fun m a => insertGroup (catKeyRaw a) a m) []

/-- Bucket lookup in the grouping map (the map.get of the source, total
because it is only consulted on present keys). -/
def lookupGroup (k : List Char) : List (List Char × List AppItem) → List AppItem
  | [] => []
  | (k', xs) :: rest => if k' = k then xs else lookupGroup k rest

/-- The keys of the grouping map in insertion order. -/
def groupKeys (l : List AppItem) : List (List Char) :=
  (groupedPairs l).map Prod.fst

/-- Embedding of the grouped memo: group keys sorted with the plain
comparator, each paired with its bucket. -/
def grouped (l : List AppItem) : List (List Char × List AppItem) :=
  (sortByCmp plainCmp (groupKeys l)).map (fun k => (k, lookupGroup k (groupedPairs l)))

/-- Concatenation of the partitions of the grouped view, in order. -/
def flattenGroups (gs : List (List Char × List AppItem)) : List AppItem :=
  (gs.map Prod.snd).flatten

/-- The shape of a parsed apps.json body: a raw array, an object carrying
an apps array, or any other JSON value. -/
inductive JsonBody
  | arr (items : List AppItem)
  | objApps (items : List AppItem)
  | other
deriving DecidableEq, Repr

/-- The outcome of the single fetch of /apps.json: a rejected fetch (or a
body that fails to parse as JSON, modelled as none), or a response with an
ok flag and a parsed body. -/
inductive LoadAttempt
  | fetchFailed
  | response (ok : Bool) (body : Option JsonBody)
deriving DecidableEq, Repr

/-- Embedding of the load effect: the catalog that ends up in state and
whether the advisory load-error message is surfaced. Mirrors the
try/catch: non-ok status throws, JSON failure throws, a wrong-shape body
yields the empty list which throws as empty, and the catch installs
FALLBACK_APPS with the advisory. -/
def loadResult : LoadAttempt → List AppItem × Bool
  | .fetchFailed => (FALLBACK_APPS, true)
  | .response ok body =>
    if !ok then (FALLBACK_APPS, true)
    else
      match body with
      | none => (FALLBACK_APPS, true)
      | some (.arr items) =>
        if items.isEmpty then (FALLBACK_APPS, true) else (items, false)
      | some (.objApps items) =>
        if items.isEmpty then (FALLBACK_APPS, true) else (items, false)
      | some .other => (FALLBACK_APPS, true)

/-! Lemmas about the stable sort model. -/

theorem insertSorted_perm {α : Type} (cmp : α → α → Ordering) (a : α) :
    ∀ l : List α, (insertSorted cmp a l).Perm (a :: l) := by
  intro l
  induction l with
  | nil => simp [insertSorted]
  | cons b bs ih =>
    by_cases h : cmp a b = .gt
    · simpa [insertSorted, h] using (ih.cons b).trans (List.Perm.swap a b bs)
    · simp [insertSorted, h]

theorem sortByCmp_perm {α : Type} (cmp : α → α → Ordering) :
    ∀ l : List α, (sortByCmp cmp l).Perm l := by
  intro l
  induction l with
  | nil => simp [sortByCmp]
  | cons a t ih =>
    have h : sortByCmp cmp (a :: t) = insertSorted cmp a (sortByCmp cmp t) := rfl
    rw [h]
    exact (insertSorted_perm cmp a (sortByCmp cmp t)).trans (ih.cons a)

theorem mem_sortByCmp {α : Type} (cmp : α → α → Ordering) (l : List α) (x : α) :
    x ∈ sortByCmp cmp l ↔ x ∈ l :=
  (sortByCmp_perm cmp l).mem_iff

theorem pairwise_insertSorted {α : Type} (cmp : α → α → Ordering)
    (htot : ∀ a b, cmp a b = .gt → cmp b a ≠ .gt)
    (htrans : ∀ a b c, cmp a b ≠ .gt → cmp b c ≠ .gt → cmp a c ≠ .gt)
    (a : α) : ∀ l : List α, List.Pairwise (fun x y => cmp x y ≠ .gt) l →
      List.Pairwise (fun x y => cmp x y ≠ .gt) (insertSorted cmp a l) := by
  intro l
  induction l with
  | nil => intro _; simp [insertSorted]
  | cons b bs ih =>
    intro h
    rcases List.pairwise_cons.mp h with ⟨hb, hbs⟩
    by_cases hab : cmp a b = .gt
    · simp only [insertSorted, hab, if_pos]
      refine List.pairwise_cons.mpr ⟨?_, ih hbs⟩
      intro x hx
      rcases List.mem_cons.mp ((insertSorted_perm cmp a bs).mem_iff.mp hx) with hxa | hxbs
      · exact hxa ▸ htot a b hab
      · exact hb x hxbs
    · simp only [insertSorted, hab, if_neg, not_false_iff]
      refine List.pairwise_cons.mpr ⟨?_, h⟩
      intro x hx
      rcases List.mem_cons.mp hx with hxb | hxbs
      · exact hxb ▸ hab
      · exact htrans a b x hab (hb x hxbs)

theorem pairwise_sortByCmp {α : Type} (cmp : α → α → Ordering)
    (htot : ∀ a b, cmp a b = .gt → cmp b a ≠ .gt)
    (htrans : ∀ a b c, cmp a b ≠ .gt → cmp b c ≠ .gt → cmp a c ≠ .gt) :
    ∀ l : List α, List.Pairwise (fun x y => cmp x y ≠ .gt) (sortByCmp cmp l) := by
  intro l
  induction l with
  | nil => simp [sortByCmp]
  | cons a t ih =>
    have h : sortByCmp cmp (a :: t) = insertSorted cmp a (sortByCmp cmp t) := rfl
    rw [h]
    exact pairwise_insertSorted cmp htot htrans a _ ih

/-! Order lemmas for the plain comparator. -/

theorem char_toNat_inj {a b : Char} (h : a.toNat = b.toNat) : a = b := by
  have ha := Char.ofNat_toNat a
  have hb := Char.ofNat_toNat b
  rw [← ha, ← hb, h]

theorem plainCmp_cons (a b : Char) (as bs : List Char) :
    plainCmp (a :: as) (b :: bs) =
      if a.toNat < b.toNat then .lt
      else if b.toNat < a.toNat then .gt
      else plainCmp as bs := by
  simp only [plainCmp, natCmp]
  split_ifs <;> rfl

theorem plainCmp_eq_iff : ∀ x y : List Char, plainCmp x y = .eq ↔ x = y := by
  intro x
  induction x with
  | nil => intro y; cases y <;> simp [plainCmp]
  | cons a as ih =>
    intro y
    cases y with
    | nil => simp [plainCmp]
    | cons b bs =>
      rw [plainCmp_cons]
      split_ifs with h1 h2
      · constructor
        · intro hc; exact absurd hc (by decide)
        · intro he; injection he with he1 he2; rw [he1] at h1; omega
      · constructor
        · intro hc; exact absurd hc (by decide)
        · intro he; injection he with he1 he2; rw [he1] at h2; omega
      · have hab : a = b := char_toNat_inj (by omega)
        constructor
        · intro hc; rw [hab, (ih bs).mp hc]
        · intro he; injection he with he1 he2; exact (ih bs).mpr he2

theorem plainCmp_gt_iff : ∀ x y : List Char, plainCmp x y = .gt ↔ plainCmp y x = .lt := by
  intro x
  induction x with
  | nil => intro y; cases y <;> simp [plainCmp]
  | cons a as ih =>
    intro y
    cases y with
    | nil => simp [plainCmp]
    | cons b bs =>
      rw [plainCmp_cons, plainCmp_cons]
      by_cases h1 : a.toNat < b.toNat
      · rw [if_pos h1, if_neg (by omega : ¬ b.toNat < a.toNat), if_pos h1]
        constructor
        · intro hc; exact absurd hc (by decide)
        · intro hc; exact absurd hc (by decide)
      · by_cases h2 : b.toNat < a.toNat
        · rw [if_neg h1, if_pos h2, if_pos h2]
          simp
        · rw [if_neg h1, if_neg h2, if_neg h2, if_neg h1]
          exact ih bs

theorem plainCmp_lt_trans :
    ∀ x y z : List Char, plainCmp x y = .lt → plainCmp y z = .lt → plainCmp x z = .lt := by
  intro x
  induction x with
  | nil =>
    intro y z hxy hyz
    cases y with
    | nil => simp [plainCmp] at hxy
    | cons b bs =>
      cases z with
      | nil => simp [plainCmp] at hyz
      | cons c cs => simp [plainCmp]
  | cons a as ih =>
    intro y z hxy hyz
    cases y with
    | nil => simp [plainCmp] at hxy
    | cons b bs =>
      cases z with
      | nil => simp [plainCmp] at hyz
      | cons c cs =>
        rw [plainCmp_cons] at hxy hyz ⊢
        by_cases h1 : a.toNat < b.toNat
        · by_cases h2 : b.toNat < c.toNat
          · rw [if_pos (by omega : a.toNat < c.toNat)]
          · rw [if_neg h2] at hyz
            by_cases h3 : c.toNat < b.toNat
            · rw [if_pos h3] at hyz; exact absurd hyz (by decide)
            · rw [if_neg h3] at hyz
              rw [if_pos (by omega : a.toNat < c.toNat)]
        · rw [if_neg h1] at hxy
          by_cases h4 : b.toNat < a.toNat
          · rw [if_pos h4] at hxy; exact absurd hxy (by decide)
          · rw [if_neg h4] at hxy
            by_cases h2 : b.toNat < c.toNat
            · rw [if_pos (by omega : a.toNat < c.toNat)]
            · rw [if_neg h2] at hyz
              by_cases h3 : c.toNat < b.toNat
              · rw [if_pos h3] at hyz; exact absurd hyz (by decide)
              · rw [if_neg h3] at hyz
                rw [if_neg (by omega : ¬ a.toNat < c.toNat),
                    if_neg (by omega : ¬ c.toNat < a.toNat)]
                exact ih bs cs hxy hyz

theorem plainCmp_le_total :
    ∀ x y : List Char, plainCmp x y ≠ .gt ∨ plainCmp y x ≠ .gt := by
  intro x y
  rcases h : plainCmp x y with _ | _ | _
  · left; decide
  · left; decide
  · right
    have := (plainCmp_gt_iff x y).mp h
    rw [this]; decide

theorem plainCmp_le_cases {x y : List Char} (h : plainCmp x y ≠ .gt) :
    plainCmp x y = .lt ∨ x = y := by
  rcases hc : plainCmp x y with _ | _ | _
  · left; rfl
  · right; exact (plainCmp_eq_iff x y).mp hc
  · exact absurd hc h

theorem plainCmp_le_trans :
    ∀ x y z : List Char, plainCmp x y ≠ .gt → plainCmp y z ≠ .gt → plainCmp x z ≠ .gt := by
  intro x y z hxy hyz
  rcases plainCmp_le_cases hxy with h1 | h1
  · rcases plainCmp_le_cases hyz with h2 | h2
    · rw [plainCmp_lt_trans x y z h1 h2]; decide
    · rw [← h2, h1]; decide
  · rw [h1]; exact hyz

/-! Lemmas about first-occurrence deduplication and grouping. -/

theorem mem_firstDedup {α : Type} [DecidableEq α] :
    ∀ (n : Nat) (l : List α), l.length ≤ n → ∀ x, (x ∈ firstDedup l ↔ x ∈ l) := by
  intro n
  induction n with
  | zero =>
    intro l hl x
    have : l = [] := List.length_eq_zero.mp (Nat.le_zero.mp hl)
    subst this; simp [firstDedup]
  | succ m ih =>
    intro l hl x
    cases l with
    | nil => simp [firstDedup]
    | cons a t =>
      have hrec : firstDedup (a :: t) = a :: firstDedup (t.filter (fun x => x ≠ a)) := by
        simp [firstDedup]
      rw [hrec]
      have hlen : (t.filter (fun x => x ≠ a)).length ≤ m := by
        have := List.length_filter_le (fun x => decide (x ≠ a)) t
        simp only [List.length_cons] at hl
        omega
      by_cases hxa : x = a
      · subst hxa; simp
      · simp only [List.mem_cons, hxa, false_or]
        rw [ih _ hlen x, List.mem_filter]
        simp [hxa]

theorem nodup_firstDedup {α : Type} [DecidableEq α] :
    ∀ (n : Nat) (l : List α), l.length ≤ n → (firstDedup l).Nodup := by
  intro n
  induction n with
  | zero =>
    intro l hl
    have : l = [] := List.length_eq_zero.mp (Nat.le_zero.mp hl)
    subst this; simp [firstDedup]
  | succ m ih =>
    intro l hl
    cases l with
    | nil => simp [firstDedup]
    | cons a t =>
      have hrec : firstDedup (a :: t) = a :: firstDedup (t.filter (fun x => x ≠ a)) := by
        simp [firstDedup]
      rw [hrec]
      have hlen : (t.filter (fun x => x ≠ a)).length ≤ m := by
        have := List.length_filter_le (fun x => decide (x ≠ a)) t
        simp only [List.length_cons] at hl
        omega
      refine List.nodup_cons.mpr ⟨?_, ih _ hlen⟩
      intro hmem
      have := (mem_firstDedup _ _ (Nat.le_refl _) a).mp hmem
      rw [List.mem_filter] at this
      simp at this

theorem firstDedup_run_append {α : Type} [DecidableEq α] {k : α} {ks rest : List α}
    (hks : ∀ x ∈ ks, x = k) (hne : ks ≠ []) (hrest : k ∉ rest) :
    firstDedup (ks ++ rest) = k :: firstDedup rest := by
  cases ks with
  | nil => exact absurd rfl hne
  | cons k0 ks' =>
    have hk0 : k0 = k := hks k0 (List.mem_cons_self k0 ks')
    subst hk0
    have hrec : firstDedup (k0 :: (ks' ++ rest)) =
        k0 :: firstDedup ((ks' ++ rest).filter (fun x => x ≠ k0)) := by
      simp [firstDedup]
    rw [List.cons_append, hrec, List.filter_append]
    have h1 : ks'.filter (fun x => decide (x ≠ k0)) = [] := by
      rw [List.filter_eq_nil_iff]
      intro a ha
      have := hks a (List.mem_cons_of_mem k0 ha)
      simp [this]
    have h2 : rest.filter (fun x => decide (x ≠ k0)) = rest := by
      rw [List.filter_eq_self]
      intro a ha
      have : a ≠ k0 := fun he => hrest (he ▸ ha)
      simp [this]
    rw [h1, h2, List.nil_append]

/-- Collapse runs of equal adjacent keys; the grouping view flattens back
to the sorted sequence exactly when this collapsed key sequence has no
duplicates (each category forms one contiguous block). -/
def destutterKeys : List (List Char) → List (List Char)
  | [] => []
  | [k] => [k]
  | k1 :: k2 :: t =>
    if k1 = k2 then destutterKeys (k2 :: t) else k1 :: destutterKeys (k2 :: t)

theorem mem_destutterKeys : ∀ (l : List (List Char)) (x : List Char),
    x ∈ destutterKeys l ↔ x ∈ l := by
  intro l
  induction l with
  | nil => simp [destutterKeys]
  | cons a t ih =>
    intro x
    cases t with
    | nil => simp [destutterKeys]
    | cons b t' =>
      by_cases hab : a = b
      · simp only [destutterKeys, if_pos hab]
        rw [ih x]
        subst hab
        simp only [List.mem_cons]
        tauto
      · simp only [destutterKeys, if_neg hab, List.mem_cons]
        rw [show (x ∈ destutterKeys (b :: t')) = (x ∈ b :: t') from propext (ih x)]
        simp [List.mem_cons]

theorem destutterKeys_run_append {k : List Char} :
    ∀ (ks : List (List Char)), (∀ x ∈ ks, x = k) → ks ≠ [] →
      ∀ (rest : List (List Char)), rest.head? ≠ some k →
        destutterKeys (ks ++ rest) = k :: destutterKeys rest := by
  intro ks
  induction ks with
  | nil => intro _ hne; exact absurd rfl hne
  | cons k0 ks' ih =>
    intro hks _ rest hrest
    have hk0 : k0 = k := hks k0 (List.mem_cons_self k0 ks')
    subst hk0
    cases ks' with
    | nil =>
      simp only [List.nil_append, List.cons_append]
      cases rest with
      | nil => simp [destutterKeys]
      | cons r0 rs =>
        have hr0 : r0 ≠ k0 := by
          intro he; exact hrest (by rw [he]; rfl)
        have hk0r0 : ¬ k0 = r0 := fun he => hr0 he.symm
        have : destutterKeys (k0 :: r0 :: rs) = k0 :: destutterKeys (r0 :: rs) := by
          simp [destutterKeys, hk0r0]
        rw [this]
    | cons k1 ks'' =>
      have hk1 : k1 = k0 := by
        have := hks k1 (List.mem_cons_of_mem k0 (List.mem_cons_self k1 ks''))
        exact this
      subst hk1
      have step : destutterKeys (k1 :: k1 :: (ks'' ++ rest)) =
          destutterKeys (k1 :: (ks'' ++ rest)) := by
        simp [destutterKeys]
      have hks' : ∀ x ∈ k1 :: ks'', x = k1 := by
        intro x hx
        exact hks x (List.mem_cons_of_mem k1 hx)
      calc destutterKeys ((k1 :: k1 :: ks'') ++ rest)
      _ = destutterKeys (k1 :: k1 :: (ks'' ++ rest)) := by simp
      _ = destutterKeys (k1 :: (ks'' ++ rest)) := step
      _ = destutterKeys ((k1 :: ks'') ++ rest) := by simp
      _ = k1 :: destutterKeys rest := ih hks' (by simp) rest hrest

/-- The records of a list whose CategoryKey is a given key, in order. -/
def keyFilter (l : List AppItem) (k : List Char) : List AppItem :=
  l.filter (fun a => decide (catKeyRaw a = k))

theorem firstDedup_append_singleton :
    ∀ (n : Nat) (K : List (List Char)), K.length ≤ n → ∀ k,
      firstDedup (K ++ [k]) =
        if k ∈ K then firstDedup K else firstDedup K ++ [k] := by
  intro n
  induction n with
  | zero =>
    intro K hK k
    have : K = [] := List.length_eq_zero.mp (Nat.le_zero.mp hK)
    subst this
    simp [firstDedup]
  | succ m ih =>
    intro K hK k
    cases K with
    | nil => simp [firstDedup]
    | cons x K' =>
      have hrec : ∀ t : List (List Char),
          firstDedup (x :: t) = x :: firstDedup (t.filter (fun q => q ≠ x)) := by
        intro t; simp [firstDedup]
      rw [List.cons_append, hrec, hrec, List.filter_append]
      by_cases hkx : k = x
      · have h1 : [k].filter (fun q => decide (q ≠ x)) = [] := by
          simp [List.filter, hkx]
        rw [h1, List.append_nil]
        have : k ∈ x :: K' := by rw [hkx]; exact List.mem_cons_self x K'
        rw [if_pos this]
      · have h1 : [k].filter (fun q => decide (q ≠ x)) = [k] := by
          simp [List.filter, hkx]
        rw [h1]
        have hlen : (K'.filter (fun q => decide (q ≠ x))).length ≤ m := by
          have := List.length_filter_le (fun q => decide (q ≠ x)) K'
          simp only [List.length_cons] at hK
          omega
        rw [ih _ hlen k]
        have hmem : k ∈ K'.filter (fun q => decide (q ≠ x)) ↔ k ∈ K' := by
          rw [List.mem_filter]
          simp [hkx]
        by_cases hk : k ∈ K'
        · rw [if_pos (hmem.mpr hk), if_pos (List.mem_cons_of_mem x hk)]
        · rw [if_neg (fun hc => hk (hmem.mp hc)),
              if_neg (by simp [hkx, hk] : ¬ k ∈ x :: K')]
          simp

theorem insertGroup_map_mem (a : AppItem) (g : List Char → List AppItem) :
    ∀ (D : List (List Char)) (k : List Char), D.Nodup → k ∈ D →
      insertGroup k a (D.map (fun q => (q, g q))) =
        D.map (fun q => (q, if q = k then g q ++ [a] else g q)) := by
  intro D
  induction D with
  | nil => intro k _ hk; simp at hk
  | cons d D' ih =>
    intro k hD hk
    rcases List.nodup_cons.mp hD with ⟨hd, hD'⟩
    by_cases hdk : d = k
    · subst hdk
      have hgoal : insertGroup d a ((d, g d) :: D'.map (fun q => (q, g q))) =
          (d, g d ++ [a]) :: D'.map (fun q => (q, g q)) := by
        simp [insertGroup]
      rw [List.map_cons, hgoal, List.map_cons, if_pos rfl]
      congr 1
      apply List.map_congr_left
      intro q hq
      have : q ≠ d := fun he => hd (he ▸ hq)
      simp [this]
    · have hk' : k ∈ D' := by
        rcases List.mem_cons.mp hk with h | h
        · exact absurd h.symm hdk
        · exact h
      simp only [List.map_cons, insertGroup, if_neg hdk]
      rw [ih k hD' hk']

theorem insertGroup_map_not_mem (a : AppItem) (g : List Char → List AppItem) :
    ∀ (D : List (List Char)) (k : List Char), k ∉ D →
      insertGroup k a (D.map (fun q => (q, g q))) =
        D.map (fun q => (q, g q)) ++ [(k, [a])] := by
  intro D
  induction D with
  | nil => intro k _; simp [insertGroup]
  | cons d D' ih =>
    intro k hk
    have hdk : d ≠ k := fun he => hk (he ▸ List.mem_cons_self d D')
    have hk' : k ∉ D' := fun hc => hk (List.mem_cons_of_mem d hc)
    simp only [List.map_cons, insertGroup, if_neg hdk, List.cons_append]
    rw [ih k hk']

theorem keyFilter_eq_nil {l : List AppItem} {k : List Char}
    (h : k ∉ l.map catKeyRaw) : keyFilter l k = [] := by
  rw [keyFilter, List.filter_eq_nil_iff]
  intro a ha
  simp only [decide_eq_true_eq]
  intro he
  exact h (he ▸ List.mem_map_of_mem catKeyRaw ha)

theorem groupedPairs_eq : ∀ l : List AppItem,
    groupedPairs l = (firstDedup (l.map catKeyRaw)).map (fun k => (k, keyFilter l k)) := by
  intro l
  induction l using List.reverseRecOn with
  | nil => simp [groupedPairs, firstDedup, keyFilter]
  | append_singleton l a ih =>
    have hstep : groupedPairs (l ++ [a]) = insertGroup (catKeyRaw a) a (groupedPairs l) := by
      simp [groupedPairs, List.foldl_append]
    rw [hstep, ih]
    have hmapapp : (l ++ [a]).map catKeyRaw = l.map catKeyRaw ++ [catKeyRaw a] := by
      simp
    have hfd := firstDedup_append_singleton (l.map catKeyRaw).length (l.map catKeyRaw)
      (Nat.le_refl _) (catKeyRaw a)
    have hfilt : ∀ q, keyFilter (l ++ [a]) q =
        keyFilter l q ++ (if q = catKeyRaw a then [a] else []) := by
      intro q
      rw [keyFilter, keyFilter, List.filter_append]
      congr 1
      by_cases hq : q = catKeyRaw a
      · simp [List.filter, hq]
      · have : ¬ catKeyRaw a = q := fun he => hq he.symm
        simp [List.filter, this, hq]
    by_cases hk : catKeyRaw a ∈ l.map catKeyRaw
    · have hkD : catKeyRaw a ∈ firstDedup (l.map catKeyRaw) :=
        (mem_firstDedup (l.map catKeyRaw).length _ (Nat.le_refl _) _).mpr hk
      rw [insertGroup_map_mem a (keyFilter l) _ _
        (nodup_firstDedup (l.map catKeyRaw).length _ (Nat.le_refl _)) hkD]
      rw [hmapapp, hfd, if_pos hk]
      apply List.map_congr_left
      intro q hq
      rw [hfilt q]
      by_cases hqa : q = catKeyRaw a <;> simp [hqa]
    · rw [insertGroup_map_not_mem a (keyFilter l) _ _
        (fun hc => hk ((mem_firstDedup (l.map catKeyRaw).length _ (Nat.le_refl _) _).mp hc))]
      rw [hmapapp, hfd, if_neg hk, List.map_append]
      congr 1
      · apply List.map_congr_left
        intro q hq
        rw [hfilt q]
        have hqa : q ≠ catKeyRaw a := by
          intro he
          exact hk (he ▸ (mem_firstDedup (l.map catKeyRaw).length _ (Nat.le_refl _) _).mp hq)
        simp [hqa]
      · simp only [List.map_cons, List.map_nil]
        rw [hfilt (catKeyRaw a), keyFilter_eq_nil hk]
        simp

theorem lookupGroup_map (g : List Char → List AppItem) (k : List Char) :
    ∀ D : List (List Char),
      lookupGroup k (D.map (fun q => (q, g q))) = if k ∈ D then g k else [] := by
  intro D
  induction D with
  | nil => simp [lookupGroup]
  | cons d D' ih =>
    by_cases hdk : d = k
    · subst hdk
      simp [lookupGroup, List.mem_cons]
    · simp only [List.map_cons, lookupGroup, if_neg hdk]
      rw [ih]
      have hmem : (k ∈ d :: D') ↔ k ∈ D' := by
        constructor
        · intro h
          rcases List.mem_cons.mp h with h1 | h1
          · exact absurd h1.symm hdk
          · exact h1
        · exact fun h => List.mem_cons_of_mem d h
      by_cases hk : k ∈ D'
      · rw [if_pos hk, if_pos (hmem.mpr hk)]
      · rw [if_neg hk, if_neg (fun hc => hk (hmem.mp hc))]

theorem groupKeys_eq (l : List AppItem) :
    groupKeys l = firstDedup (l.map catKeyRaw) := by
  rw [groupKeys, groupedPairs_eq, List.map_map]
  exact List.map_id _

theorem grouped_eq (l : List AppItem) :
    grouped l = (sortByCmp plainCmp (firstDedup (l.map catKeyRaw))).map
      (fun k => (k, keyFilter l k)) := by
  rw [grouped, groupKeys_eq, groupedPairs_eq]
  apply List.map_congr_left
  intro k hk
  have hkD : k ∈ firstDedup (l.map catKeyRaw) :=
    (mem_sortByCmp plainCmp _ k).mp hk
  rw [lookupGroup_map (keyFilter l) k, if_pos hkD]

theorem head?_dropWhile_not {α : Type} (p : α → Bool) :
    ∀ (l : List α) (x : α), (l.dropWhile p).head? = some x → p x = false := by
  intro l
  induction l with
  | nil => intro x h; simp [List.dropWhile] at h
  | cons a t ih =>
    intro x h
    by_cases ha : p a = true
    · rw [List.dropWhile_cons, if_pos ha] at h
      exact ih x h
    · rw [List.dropWhile_cons, if_neg ha] at h
      have hax : a = x := by
        simpa using h
      rw [← hax]
      exact Bool.not_eq_true _ ▸ (by simpa using ha)

theorem flatten_keyFilter_eq :
    ∀ (n : Nat) (l : List AppItem), l.length ≤ n →
      (destutterKeys (l.map catKeyRaw)).Nodup →
      ((firstDedup (l.map catKeyRaw)).map (keyFilter l)).flatten = l := by
  intro n
  induction n with
  | zero =>
    intro l hl _
    have : l = [] := List.length_eq_zero.mp (Nat.le_zero.mp hl)
    subst this
    simp [firstDedup]
  | succ m ih =>
    intro l hl hch
    cases l with
    | nil => simp [firstDedup]
    | cons a t =>
      have hpa : (fun x => decide (catKeyRaw x = catKeyRaw a)) a = true := by simp
      have hb : (a :: t).takeWhile (fun x => decide (catKeyRaw x = catKeyRaw a)) =
          a :: t.takeWhile (fun x => decide (catKeyRaw x = catKeyRaw a)) := by
        rw [List.takeWhile_cons, if_pos hpa]
      have hbr : (a :: t).takeWhile (fun x => decide (catKeyRaw x = catKeyRaw a)) ++
          (a :: t).dropWhile (fun x => decide (catKeyRaw x = catKeyRaw a)) = a :: t :=
        List.takeWhile_append_dropWhile _ _
      set b := (a :: t).takeWhile (fun x => decide (catKeyRaw x = catKeyRaw a)) with hbdef
      set r := (a :: t).dropWhile (fun x => decide (catKeyRaw x = catKeyRaw a)) with hrdef
      have hballk : ∀ x ∈ b, catKeyRaw x = catKeyRaw a := by
        intro x hx
        have := List.mem_takeWhile_imp hx
        simpa using this
      have hbne : b ≠ [] := by rw [hb]; simp
      have hkeysall : ∀ q ∈ b.map catKeyRaw, q = catKeyRaw a := by
        intro q hq
        rcases List.mem_map.mp hq with ⟨x, hx, hqx⟩
        rw [← hqx]; exact hballk x hx
      have hkeysne : b.map catKeyRaw ≠ [] := by
        intro hc; exact hbne (List.map_eq_nil_iff.mp hc)
      have hrheadkey : (r.map catKeyRaw).head? ≠ some (catKeyRaw a) := by
        cases hr : r with
        | nil => simp
        | cons x rs =>
          have hpx : (fun y => decide (catKeyRaw y = catKeyRaw a)) x = false := by
            refine head?_dropWhile_not
              (fun y => decide (catKeyRaw y = catKeyRaw a)) (a :: t) x ?_
            rw [← hrdef, hr]
            rfl
          have : ¬ catKeyRaw x = catKeyRaw a := by simpa using hpx
          simp [hr, this]
      have hmapsplit : (a :: t).map catKeyRaw = b.map catKeyRaw ++ r.map catKeyRaw := by
        rw [← List.map_append, hbr]
      have hdes : destutterKeys ((a :: t).map catKeyRaw) =
          catKeyRaw a :: destutterKeys (r.map catKeyRaw) := by
        rw [hmapsplit]
        exact destutterKeys_run_append (b.map catKeyRaw) hkeysall hkeysne _ hrheadkey
      rw [hdes] at hch
      rcases List.nodup_cons.mp hch with ⟨hknotin, hch'⟩
      have hknotr : catKeyRaw a ∉ r.map catKeyRaw := by
        intro hc
        exact hknotin ((mem_destutterKeys (r.map catKeyRaw) _).mpr hc)
      have hfd : firstDedup ((a :: t).map catKeyRaw) =
          catKeyRaw a :: firstDedup (r.map catKeyRaw) := by
        rw [hmapsplit]
        exact firstDedup_run_append hkeysall hkeysne hknotr
      have hfiltk : keyFilter (a :: t) (catKeyRaw a) = b := by
        have h1 : keyFilter b (catKeyRaw a) = b := by
          rw [keyFilter, List.filter_eq_self]
          intro x hx
          simp [hballk x hx]
        have h2 : keyFilter r (catKeyRaw a) = [] := keyFilter_eq_nil hknotr
        have : keyFilter (b ++ r) (catKeyRaw a) = b := by
          rw [keyFilter, List.filter_append, ← keyFilter, ← keyFilter, h1, h2,
            List.append_nil]
        rw [← hbr]
        exact this
      have hfiltq : ∀ q ∈ firstDedup (r.map catKeyRaw),
          keyFilter (a :: t) q = keyFilter r q := by
        intro q hq
        have hqr : q ∈ r.map catKeyRaw :=
          (mem_firstDedup (r.map catKeyRaw).length _ (Nat.le_refl _) q).mp hq
        have hqk : q ≠ catKeyRaw a := fun he => hknotr (he ▸ hqr)
        have h1 : keyFilter b q = [] := by
          rw [keyFilter, List.filter_eq_nil_iff]
          intro x hx
          simp only [decide_eq_true_eq]
          intro he
          exact hqk ((hballk x hx ▸ he).symm)
        have : keyFilter (b ++ r) q = keyFilter r q := by
          rw [keyFilter, List.filter_append, ← keyFilter, ← keyFilter, h1,
            List.nil_append]
        rw [← hbr]
        exact this
      have hlenbr : b.length + r.length = t.length + 1 := by
        have := congrArg List.length hbr
        simp only [List.length_append, List.length_cons] at this
        omega
      have hbpos : 1 ≤ b.length := by
        cases hbc : b with
        | nil => exact absurd hbc hbne
        | cons _ _ => simp
      have hrlen : r.length ≤ m := by
        simp only [List.length_cons] at hl
        omega
      rw [hfd, List.map_cons, List.flatten_cons, hfiltk]
      rw [List.map_congr_left hfiltq]
      rw [ih r hrlen hch']
      exact hbr

theorem flatten_keyFilter_cons_perm (a : AppItem) (t : List AppItem) :
    ∀ D : List (List Char), D.Nodup → catKeyRaw a ∈ D →
      ((D.map (keyFilter (a :: t))).flatten).Perm
        (a :: (D.map (keyFilter t)).flatten) := by
  intro D
  induction D with
  | nil => intro _ ha; simp at ha
  | cons d D' ih =>
    intro hD ha
    rcases List.nodup_cons.mp hD with ⟨hd, hD'⟩
    by_cases hda : catKeyRaw a = d
    · have hhead : keyFilter (a :: t) d = a :: keyFilter t d := by
        rw [keyFilter, List.filter_cons, if_pos (by simp [hda])]
        rfl
      have htail : D'.map (keyFilter (a :: t)) = D'.map (keyFilter t) := by
        apply List.map_congr_left
        intro q hq
        have hqd : q ≠ d := fun he => hd (he ▸ hq)
        rw [keyFilter, List.filter_cons,
          if_neg (by simp; intro he; exact hqd (hda ▸ he).symm)]
        rfl
      rw [List.map_cons, List.flatten_cons, hhead, htail, List.map_cons,
        List.flatten_cons, List.cons_append]
    · have hhead : keyFilter (a :: t) d = keyFilter t d := by
        rw [keyFilter, List.filter_cons, if_neg (by simpa using hda)]
        rfl
      have ha' : catKeyRaw a ∈ D' := by
        rcases List.mem_cons.mp ha with h | h
        · exact absurd h hda
        · exact h
      rw [List.map_cons, List.flatten_cons, hhead, List.map_cons, List.flatten_cons]
      have s1 : (keyFilter t d ++ (D'.map (keyFilter (a :: t))).flatten).Perm
          (keyFilter t d ++ (a :: (D'.map (keyFilter t)).flatten)) :=
        List.Perm.append_left _ (ih hD' ha')
      have s2 : (keyFilter t d ++ (a :: (D'.map (keyFilter t)).flatten)).Perm
          (a :: (keyFilter t d ++ (D'.map (keyFilter t)).flatten)) := List.perm_middle
      exact s1.trans s2

theorem flatten_keyFilter_perm :
    ∀ (l : List AppItem) (D : List (List Char)), D.Nodup →
      (∀ x ∈ l, catKeyRaw x ∈ D) →
      ((D.map (keyFilter l)).flatten).Perm l := by
  intro l
  induction l with
  | nil =>
    intro D _ _
    have h : ∀ D' : List (List Char), ((D'.map (keyFilter [])).flatten) = [] := by
      intro D'
      induction D' with
      | nil => rfl
      | cons d ds ihd => simp [keyFilter, List.filter, ihd]
    rw [h D]
  | cons a t ih =>
    intro D hD hcov
    have ha : catKeyRaw a ∈ D := hcov a (List.mem_cons_self a t)
    have step := flatten_keyFilter_cons_perm a t D hD ha
    exact step.trans ((ih D hD (fun x hx => hcov x (List.mem_cons_of_mem a hx))).cons a)

/-! The code's regex split, with empty tokens dropped, agrees with the
spec's description of the tokenizer. -/

theorem length_dropWhile_le' {α : Type} (p : α → Bool) :
    ∀ l : List α, (l.dropWhile p).length ≤ l.length := by
  intro l
  induction l with
  | nil => simp [List.dropWhile]
  | cons x xs ih =>
    by_cases hx : p x = true
    · rw [List.dropWhile_cons, if_pos hx]
      simp only [List.length_cons]
      omega
    · rw [List.dropWhile_cons, if_neg hx]

theorem wordsSep_dropWhile_white :
    ∀ t : List Char, wordsSep (t.dropWhile jsWhite) = wordsSep t := by
  intro t
  induction t with
  | nil => simp [List.dropWhile]
  | cons x t' ih =>
    by_cases hx : jsWhite x = true
    · rw [List.dropWhile_cons, if_pos hx, ih]
      have hsep : sepChar x = true := by simp [sepChar, hx]
      rw [show wordsSep (x :: t') = wordsSep t' by simp [wordsSep, hsep]]
    · rw [List.dropWhile_cons, if_neg hx]

/-- The spec's reading of initialsFrom, written from the spec's words:
trim, sentinel on empty, maximal runs of non-separator characters, first
character of the first two tokens, uppercased. -/
def initialsSpec (text : List Char) : List Char :=
  let t := trimJ text
  if t = [] then "?".data
  else
    let parts := wordsSep t
    (((parts.getD 0 []).take 1) ++ ((parts.getD 1 []).take 1)).map Char.toUpper

theorem filter_isEmpty_cons_ne (x : List Char) (xs : List (List Char)) (hx : x ≠ []) :
    (x :: xs).filter (fun p => !p.isEmpty) = x :: xs.filter (fun p => !p.isEmpty) := by
  rw [List.filter_cons, if_pos]
  cases x with
  | nil => exact absurd rfl hx
  | cons _ _ => rfl

theorem filter_isEmpty_cons_nil (xs : List (List Char)) :
    (([] : List Char) :: xs).filter (fun p => !p.isEmpty) = xs.filter (fun p => !p.isEmpty) := by
  rfl

theorem splitSepFuel_filter :
    ∀ (fuel : Nat) (l acc : List Char), l.length ≤ fuel →
      (splitSepGoFuel fuel acc l).filter (fun p => !p.isEmpty) =
        if acc = [] then wordsSep l
        else (acc.reverse ++ l.takeWhile (fun x => !sepChar x)) ::
          wordsSep (l.dropWhile (fun x => !sepChar x)) := by
  have hnil : ∀ (fuel : Nat) (acc : List Char),
      (splitSepGoFuel fuel acc []).filter (fun p => !p.isEmpty) =
        if acc = [] then wordsSep []
        else (acc.reverse ++ [].takeWhile (fun x => !sepChar x)) ::
          wordsSep ([].dropWhile (fun x => !sepChar x)) := by
    intro fuel acc
    have hunf : splitSepGoFuel fuel acc [] = [acc.reverse] := by
      cases fuel <;> rfl
    rw [hunf]
    by_cases hacc : acc = []
    · subst hacc
      rw [if_pos rfl, List.reverse_nil, filter_isEmpty_cons_nil]
      simp [wordsSep]
    · have hrev : acc.reverse ≠ [] := fun hc => hacc (List.reverse_eq_nil_iff.mp hc)
      rw [if_neg hacc, filter_isEmpty_cons_ne _ _ hrev]
      simp [wordsSep]
  intro fuel
  induction fuel with
  | zero =>
    intro l acc hl
    have : l = [] := List.length_eq_zero.mp (Nat.le_zero.mp hl)
    subst this
    exact hnil 0 acc
  | succ m ih =>
    intro l acc hl
    cases l with
    | nil => exact hnil (m + 1) acc
    | cons c t =>
      simp only [List.length_cons] at hl
      by_cases hw : jsWhite c = true
      · have hsep : sepChar c = true := by simp [sepChar, hw]
        have hdl : (t.dropWhile jsWhite).length ≤ m :=
          Nat.le_trans (length_dropWhile_le' jsWhite t) (by omega)
        have hrec := ih (t.dropWhile jsWhite) [] hdl
        rw [if_pos rfl] at hrec
        have hunf : splitSepGoFuel (m + 1) acc (c :: t) =
            acc.reverse :: splitSepGoFuel m [] (t.dropWhile jsWhite) := by
          simp [splitSepGoFuel, hw]
        rw [hunf]
        have hwords : wordsSep (c :: t) = wordsSep t := by simp [wordsSep, hsep]
        by_cases hacc : acc = []
        · subst hacc
          rw [if_pos rfl, List.reverse_nil, filter_isEmpty_cons_nil, hrec,
            wordsSep_dropWhile_white, hwords]
        · have hrev : acc.reverse ≠ [] := fun hc => hacc (List.reverse_eq_nil_iff.mp hc)
          rw [if_neg hacc, filter_isEmpty_cons_ne _ _ hrev, hrec,
            wordsSep_dropWhile_white]
          have htake : (c :: t).takeWhile (fun x => !sepChar x) = [] := by
            rw [List.takeWhile_cons, if_neg (by simp [hsep])]
          have hdrop : (c :: t).dropWhile (fun x => !sepChar x) = c :: t := by
            rw [List.dropWhile_cons, if_neg (by simp [hsep])]
          rw [htake, hdrop, List.append_nil, hwords]
      · by_cases hd : (c = '.' || c = '-') = true
        · have hsep : sepChar c = true := by
            rcases Bool.or_eq_true_iff.mp hd with h1 | h1 <;>
              simp [sepChar, h1]
          have hrec := ih t [] (by omega)
          rw [if_pos rfl] at hrec
          have hunf : splitSepGoFuel (m + 1) acc (c :: t) =
              acc.reverse :: splitSepGoFuel m [] t := by
            simp [splitSepGoFuel, hw, hd]
          rw [hunf]
          have hwords : wordsSep (c :: t) = wordsSep t := by simp [wordsSep, hsep]
          by_cases hacc : acc = []
          · subst hacc
            rw [if_pos rfl, List.reverse_nil, filter_isEmpty_cons_nil, hrec, hwords]
          · have hrev : acc.reverse ≠ [] := fun hc => hacc (List.reverse_eq_nil_iff.mp hc)
            rw [if_neg hacc, filter_isEmpty_cons_ne _ _ hrev, hrec]
            have htake : (c :: t).takeWhile (fun x => !sepChar x) = [] := by
              rw [List.takeWhile_cons, if_neg (by simp [hsep])]
            have hdrop : (c :: t).dropWhile (fun x => !sepChar x) = c :: t := by
              rw [List.dropWhile_cons, if_neg (by simp [hsep])]
            rw [htake, hdrop, List.append_nil, hwords]
        · have h1 : jsWhite c = false := by
            cases hjw : jsWhite c
            · rfl
            · exact absurd hjw hw
          have hdp : (c = '.' || c = '-') = false := by
            cases hdd : (c = '.' || c = '-')
            · rfl
            · exact absurd hdd hd
          have hsep : sepChar c = false := by
            simp only [sepChar, h1, Bool.false_or]
            simpa using hdp
          have hunf : splitSepGoFuel (m + 1) acc (c :: t) =
              splitSepGoFuel m (c :: acc) t := by
            simp [splitSepGoFuel, h1, hdp]
          rw [hunf]
          have hrec := ih t (c :: acc) (by omega)
          rw [if_neg (by simp : ¬(c :: acc = []))] at hrec
          rw [hrec]
          have htake : (c :: t).takeWhile (fun x => !sepChar x) =
              c :: t.takeWhile (fun x => !sepChar x) := by
            rw [List.takeWhile_cons, if_pos (by simp [hsep])]
          have hdrop : (c :: t).dropWhile (fun x => !sepChar x) =
              t.dropWhile (fun x => !sepChar x) := by
            rw [List.dropWhile_cons, if_pos (by simp [hsep])]
          by_cases hacc : acc = []
          · subst hacc
            rw [if_pos rfl]
            have hws : wordsSep (c :: t) =
                (c :: t.takeWhile (fun x => !sepChar x)) ::
                  wordsSep (t.dropWhile (fun x => !sepChar x)) := by
              simp [wordsSep, hsep]
            rw [hws]
            simp
          · rw [if_neg hacc, htake, hdrop]
            simp [List.reverse_cons, List.append_assoc]

/-! Claim theorems. -/

/-- C2 counterexample: the input a.b.huny.dev fails URL parsing, yet
getSubdomainForSort does not return it unchanged — the suffix rule fires
on the degraded host and extracts the first label instead. -/
theorem c2_sortkey_parse_failure_counterexample :
    parseHostname "a.b.huny.dev".data = none
    ∧ getSubdomainForSort "a.b.huny.dev".data = "a".data
    ∧ "a".data ≠ "a.b.huny.dev".data := by
  refine ⟨by decide, by decide, by decide⟩

/-- C2 (amended): getSubdomainForSort never fails; on a URL-parse failure
the raw input becomes the degraded hostname, and the function returns the
raw input unchanged unless the raw input itself ends with the root suffix
and splits into at least three dot-labels, in which case it returns the
first label of the raw input. -/
theorem c2_sortkey_parse_failure (url : List Char) (h : parseHostname url = none) :
    (¬(rootSuffix.isSuffixOf url = true ∧ 3 ≤ (splitOnDot url).length) →
      getSubdomainForSort url = url)
    ∧ (rootSuffix.isSuffixOf url = true → 3 ≤ (splitOnDot url).length →
      getSubdomainForSort url = (splitOnDot url).headD []) := by
  have hh : getHostname url = url := by rw [getHostname, h]; rfl
  constructor
  · intro hn
    simp only [getSubdomainForSort, hh]
    by_cases h1 : rootSuffix.isSuffixOf url = true
    · rw [if_pos h1, if_neg (fun hc => hn ⟨h1, hc⟩)]
    · rw [if_neg h1]
  · intro h1 h2
    simp only [getSubdomainForSort, hh]
    rw [if_pos h1, if_pos h2]

/-- Witness for C2 (amended) at a concrete unparseable input. -/
theorem c2_sortkey_parse_failure_witness :
    parseHostname "notaurl".data = none
    ∧ getSubdomainForSort "notaurl".data = "notaurl".data :=
  ⟨by decide, (c2_sortkey_parse_failure "notaurl".data (by decide)).1 (by decide)⟩

/-- C3: on a URL that parses, getSubdomainForSort returns the first
dot-label of the hostname when the hostname ends with the root suffix and
has at least three labels, and the full hostname otherwise; in particular
the studio subdomain gives "studio" and the apex gives the full host. -/
theorem c3_sortkey_parsed (url host : List Char) (h : parseHostname url = some host) :
    (rootSuffix.isSuffixOf host = true → 3 ≤ (splitOnDot host).length →
      getSubdomainForSort url = (splitOnDot host).headD [])
    ∧ (¬(rootSuffix.isSuffixOf host = true ∧ 3 ≤ (splitOnDot host).length) →
      getSubdomainForSort url = host)
    ∧ getSubdomainForSort "https://studio.huny.dev".data = "studio".data
    ∧ getSubdomainForSort "https://huny.dev".data = "huny.dev".data := by
  have hh : getHostname url = host := by rw [getHostname, h]; rfl
  refine ⟨?_, ?_, by decide, by decide⟩
  · intro h1 h2
    simp only [getSubdomainForSort, hh]
    rw [if_pos h1, if_pos h2]
  · intro hn
    simp only [getSubdomainForSort, hh]
    by_cases h1 : rootSuffix.isSuffixOf host = true
    · rw [if_pos h1, if_neg (fun hc => hn ⟨h1, hc⟩)]
    · rw [if_neg h1]

/-- Witness for C3 at the studio subdomain URL. -/
theorem c3_sortkey_parsed_witness :
    parseHostname "https://studio.huny.dev".data = some "studio.huny.dev".data
    ∧ getSubdomainForSort "https://studio.huny.dev".data =
        (splitOnDot "studio.huny.dev".data).headD [] :=
  ⟨by decide, (c3_sortkey_parsed "https://studio.huny.dev".data "studio.huny.dev".data
      (by decide)).1 (by decide) (by decide)⟩

/-- C8: initialsFrom trims its input, returns the "?" sentinel when the
trimmed input is empty, and otherwise tokenizes on runs of whitespace,
dots and hyphens, drops empty tokens, and uppercases the concatenation of
the first characters of the first two tokens; in particular
"Voice Conversion" gives "VC", "Studio" gives "S" and "" gives "?". -/
theorem c8_initials :
    (∀ text : List Char, initialsFrom text = initialsSpec text)
    ∧ initialsFrom "Voice Conversion".data = "VC".data
    ∧ initialsFrom "Studio".data = "S".data
    ∧ initialsFrom "".data = "?".data := by
  refine ⟨?_, by decide, by decide, by decide⟩
  intro text
  simp only [initialsFrom, initialsSpec]
  by_cases h : trimJ text = []
  · rw [if_pos h, if_pos h]
  · rw [if_neg h, if_neg h]
    have hgo : splitSepGo [] (trimJ text) =
        splitSepGoFuel (trimJ text).length [] (trimJ text) := rfl
    rw [hgo, splitSepFuel_filter _ _ _ (Nat.le_refl _), if_pos rfl]

/-- Witness for C8 at a concrete input with separators. -/
theorem c8_initials_witness :
    initialsFrom "a.b".data = initialsSpec "a.b".data :=
  c8_initials.1 "a.b".data

/-- The 32-bit hash accumulation as the spec states it. -/
def specHash (seed : List Char) : Nat :=
  seed.foldl (fun h c => (h * 31 + c.toNat) % 2 ^ 32) 0

theorem specHash_fold_lt (l : List Char) :
    ∀ h0 : Nat, h0 < 2 ^ 32 →
      l.foldl (fun h c => (h * 31 + c.toNat) % 2 ^ 32) h0 < 2 ^ 32 := by
  induction l with
  | nil => intro h0 h; simpa using h
  | cons c t ih =>
    intro h0 h
    rw [List.foldl_cons]
    exact ih _ (Nat.mod_lt _ (by norm_num))

/-- C9: hashToHsl computes the 32-bit accumulating hash of the spec
(hash = (hash * 31 + code) mod 2^32 from 0), returns hue = hash mod 360
(so hue lies below 360) with fixed saturation 65 and lightness 50, and is
deterministic in its seed. -/
theorem c9_seeded_color (s : List Char) :
    hashToHsl s = (specHash s % 360, 65, 50)
    ∧ (hashToHsl s).1 < 360
    ∧ specHash s < 2 ^ 32
    ∧ (∀ t, s = t → hashToHsl s = hashToHsl t) := by
  refine ⟨rfl, ?_, ?_, ?_⟩
  · show specHash s % 360 < 360
    exact Nat.mod_lt _ (by norm_num)
  · exact specHash_fold_lt s 0 (by norm_num)
  · intro t h; rw [h]

/-- Witness for C9 at a concrete seed. -/
theorem c9_seeded_color_witness :
    (hashToHsl "test".data).1 < 360
    ∧ hashToHsl "test".data = hashToHsl "test".data :=
  ⟨(c9_seeded_color "test".data).2.1, (c9_seeded_color "test".data).2.2.2 _ rfl⟩

/-- C10: the input ".", which is non-empty and consists only of separator
characters, makes initialsFrom return the empty string, not the "?"
sentinel: all tokens are empty and dropped, so both first characters
default to the empty string. -/
theorem c10_initials_separator_only :
    ".".data ≠ []
    ∧ (∀ c ∈ ".".data, sepChar c = true)
    ∧ initialsFrom ".".data = []
    ∧ ([] : List Char) ≠ "?".data := by
  refine ⟨by decide, by decide, by decide, by decide⟩

/-- C4: the loader never fails outward — exactly when the fetch resolves
with an ok status and a JSON body that is a non-empty array (raw or under
the apps field), the catalog is that sequence with no advisory surfaced;
on every other outcome (network error, non-ok status, JSON parse failure,
wrong shape, or empty sequence) the catalog is the built-in fallback and
the advisory is surfaced. -/
theorem c4_load_never_fails (att : LoadAttempt) :
    (∃ items, items ≠ []
      ∧ (att = .response true (some (.arr items))
          ∨ att = .response true (some (.objApps items)))
      ∧ loadResult att = (items, false))
    ∨ (loadResult att = (FALLBACK_APPS, true)
      ∧ ∀ items, items ≠ [] →
          att ≠ .response true (some (.arr items))
          ∧ att ≠ .response true (some (.objApps items))) := by
  cases att with
  | fetchFailed =>
    right
    exact ⟨rfl, fun items _ => ⟨by simp, by simp⟩⟩
  | response ok body =>
    cases ok with
    | false =>
      right
      exact ⟨by simp [loadResult], fun items _ => ⟨by simp, by simp⟩⟩
    | true =>
      cases body with
      | none =>
        right
        exact ⟨by simp [loadResult], fun items _ => ⟨by simp, by simp⟩⟩
      | some b =>
        cases b with
        | arr items =>
          by_cases hi : items = []
          · subst hi
            right
            refine ⟨by simp [loadResult], ?_⟩
            intro items' hne
            constructor
            · intro hc
              simp only [LoadAttempt.response.injEq, Option.some.injEq,
                JsonBody.arr.injEq, true_and] at hc
              exact hne hc.symm
            · intro hc
              simp at hc
          · left
            refine ⟨items, hi, Or.inl rfl, ?_⟩
            have hie : items.isEmpty = false := by
              cases hc : items.isEmpty
              · rfl
              · exact absurd (List.isEmpty_iff.mp hc) hi
            simp [loadResult, hie]
        | objApps items =>
          by_cases hi : items = []
          · subst hi
            right
            refine ⟨by simp [loadResult], ?_⟩
            intro items' hne
            constructor
            · intro hc
              simp at hc
            · intro hc
              simp only [LoadAttempt.response.injEq, Option.some.injEq,
                JsonBody.objApps.injEq, true_and] at hc
              exact hne hc.symm
          · left
            refine ⟨items, hi, Or.inr rfl, ?_⟩
            have hie : items.isEmpty = false := by
              cases hc : items.isEmpty
              · rfl
              · exact absurd (List.isEmpty_iff.mp hc) hi
            simp [loadResult, hie]
        | other =>
          right
          exact ⟨by simp [loadResult], fun items _ => ⟨by simp, by simp⟩⟩

/-- Witness for C4 at the failed-fetch outcome. -/
theorem c4_load_never_fails_witness :
    loadResult .fetchFailed = (FALLBACK_APPS, true) := by
  rcases c4_load_never_fails .fetchFailed with ⟨items, _, hshape, _⟩ | ⟨h, _⟩
  · rcases hshape with h | h <;> cases h
  · exact h

/-- C5: a record is in the filtered stage exactly when it is in the
catalog, the trimmed query is empty or occurs case-insensitively in the
haystack of title, description, raw URL, hostname and sort key, and the
category filter is the all-sentinel or equals the record's CategoryKey
case-insensitively. -/
theorem c5_filter_membership (apps : List AppItem) (query catFilter : List Char)
    (a : AppItem) :
    a ∈ filteredList apps query catFilter ↔
      a ∈ apps
      ∧ (trimJ query = []
          ∨ containsSub (toLowerJ (trimJ query)) (toLowerJ (queryHay a)) = true)
      ∧ (catFilter = ALL_CATEGORIES
          ∨ toLowerJ (catKeyRaw a) = toLowerJ catFilter) := by
  have hq : (if toLowerJ (trimJ query) = [] then true
      else containsSub (toLowerJ (trimJ query)) (toLowerJ (queryHay a))) = true ↔
      (trimJ query = []
        ∨ containsSub (toLowerJ (trimJ query)) (toLowerJ (queryHay a)) = true) := by
    by_cases h : toLowerJ (trimJ query) = []
    · rw [if_pos h]
      have h' : trimJ query = [] := by
        rw [toLowerJ, List.map_eq_nil_iff] at h
        exact h
      simp [h']
    · rw [if_neg h]
      have h' : ¬ trimJ query = [] := by
        intro hc
        exact h (by rw [toLowerJ, hc]; rfl)
      simp [h']
  have hc : (if catFilter = ALL_CATEGORIES then true
      else decide (toLowerJ (catKeyRaw a) = toLowerJ catFilter)) = true ↔
      (catFilter = ALL_CATEGORIES
        ∨ toLowerJ (catKeyRaw a) = toLowerJ catFilter) := by
    by_cases h : catFilter = ALL_CATEGORIES
    · rw [if_pos h]
      simp [h]
    · rw [if_neg h]
      simp [h]
  have hpass : recordPasses query catFilter a = true ↔
      ((trimJ query = []
        ∨ containsSub (toLowerJ (trimJ query)) (toLowerJ (queryHay a)) = true)
      ∧ (catFilter = ALL_CATEGORIES
        ∨ toLowerJ (catKeyRaw a) = toLowerJ catFilter)) := by
    simp only [recordPasses]
    rw [Bool.and_eq_true]
    exact and_congr hq hc
  rw [filteredList, List.mem_filter, hpass]

/-- Witness for C5 at a concrete record and query. -/
theorem c5_filter_membership_witness :
    (⟨"Studio".data, "https://studio.huny.dev".data, none, none, none⟩ : AppItem) ∈
      filteredList FALLBACK_APPS "studio".data ALL_CATEGORIES ↔
      (⟨"Studio".data, "https://studio.huny.dev".data, none, none, none⟩ : AppItem) ∈
        FALLBACK_APPS
      ∧ (trimJ "studio".data = []
          ∨ containsSub (toLowerJ (trimJ "studio".data))
              (toLowerJ (queryHay ⟨"Studio".data, "https://studio.huny.dev".data,
                none, none, none⟩)) = true)
      ∧ (ALL_CATEGORIES = ALL_CATEGORIES
          ∨ toLowerJ (catKeyRaw ⟨"Studio".data, "https://studio.huny.dev".data,
              none, none, none⟩) = toLowerJ ALL_CATEGORIES) :=
  c5_filter_membership FALLBACK_APPS "studio".data ALL_CATEGORIES _

/-- C6: every record of the filtered and sorted sequence lies in exactly
one partition of the grouped view — the partition whose key is the
record's CategoryKey — and flattening the grouped view is a permutation of
the sorted sequence, for every catalog, query, filter and sort mode. -/
theorem c6_grouped_partition (apps : List AppItem) (query catFilter : List Char)
    (sort : SortMode) :
    ((flattenGroups (grouped (normalizedList apps query catFilter sort))).Perm
      (normalizedList apps query catFilter sort))
    ∧ ∀ a ∈ normalizedList apps query catFilter sort,
        ∃ g ∈ grouped (normalizedList apps query catFilter sort),
          g.1 = catKeyRaw a ∧ a ∈ g.2
          ∧ ∀ g' ∈ grouped (normalizedList apps query catFilter sort),
              a ∈ g'.2 → g' = g := by
  set s := normalizedList apps query catFilter sort with hs
  have hD : (firstDedup (s.map catKeyRaw)).Nodup :=
    nodup_firstDedup (s.map catKeyRaw).length _ (Nat.le_refl _)
  have hcov : ∀ x ∈ s, catKeyRaw x ∈ firstDedup (s.map catKeyRaw) := fun x hx =>
    (mem_firstDedup (s.map catKeyRaw).length _ (Nat.le_refl _) _).mpr
      (List.mem_map_of_mem catKeyRaw hx)
  constructor
  · rw [flattenGroups, grouped_eq, List.map_map]
    have hmap : ((sortByCmp plainCmp (firstDedup (s.map catKeyRaw))).map
        (Prod.snd ∘ fun k => (k, keyFilter s k))) =
        (sortByCmp plainCmp (firstDedup (s.map catKeyRaw))).map (keyFilter s) := rfl
    rw [hmap]
    have hperm : ((sortByCmp plainCmp (firstDedup (s.map catKeyRaw))).map
        (keyFilter s)).Perm ((firstDedup (s.map catKeyRaw)).map (keyFilter s)) :=
      (sortByCmp_perm plainCmp _).map (keyFilter s)
    exact hperm.flatten.trans (flatten_keyFilter_perm s _ hD hcov)
  · intro a ha
    refine ⟨(catKeyRaw a, keyFilter s (catKeyRaw a)), ?_, rfl, ?_, ?_⟩
    · rw [grouped_eq]
      exact List.mem_map_of_mem _ ((mem_sortByCmp plainCmp _ _).mpr (hcov a ha))
    · rw [keyFilter, List.mem_filter]
      exact ⟨ha, by simp⟩
    · intro g' hg' hag'
      rw [grouped_eq] at hg'
      rcases List.mem_map.mp hg' with ⟨k, _, hgk⟩
      rw [← hgk] at hag'
      have hk : catKeyRaw a = k := by
        rw [keyFilter, List.mem_filter] at hag'
        simpa using hag'.2
      rw [← hgk, ← hk]

/-- Witness for C6 at the built-in catalog under name sorting. -/
theorem c6_grouped_partition_witness :
    (flattenGroups (grouped (normalizedList FALLBACK_APPS [] ALL_CATEGORIES .name))).Perm
      (normalizedList FALLBACK_APPS [] ALL_CATEGORIES .name) :=
  (c6_grouped_partition FALLBACK_APPS [] ALL_CATEGORIES .name).1

/-- C7: the category options are the all-sentinel followed by the distinct
CategoryKeys of the whole unfiltered catalog, sorted ascending by the
plain comparator with no duplicates; on the empty catalog they are exactly
the singleton all-sentinel. -/
theorem c7_category_options (apps : List AppItem) :
    (categories apps).head? = some ALL_CATEGORIES
    ∧ (categories apps).tail.Nodup
    ∧ List.Pairwise (fun x y => plainCmp x y ≠ Ordering.gt) (categories apps).tail
    ∧ (∀ x, x ∈ (categories apps).tail ↔ ∃ a ∈ apps, catKeyRaw a = x)
    ∧ (apps = [] → categories apps = [ALL_CATEGORIES]) := by
  have htail : (categories apps).tail =
      sortByCmp plainCmp (firstDedup (apps.map catKeyRaw)) := rfl
  refine ⟨rfl, ?_, ?_, ?_, ?_⟩
  · rw [htail]
    exact ((sortByCmp_perm plainCmp _).nodup_iff).mpr
      (nodup_firstDedup (apps.map catKeyRaw).length _ (Nat.le_refl _))
  · rw [htail]
    refine pairwise_sortByCmp plainCmp ?_ plainCmp_le_trans _
    intro a b hab
    rw [(plainCmp_gt_iff a b).mp hab]
    decide
  · intro x
    rw [htail, mem_sortByCmp plainCmp _ x,
      mem_firstDedup (apps.map catKeyRaw).length (apps.map catKeyRaw) (Nat.le_refl _) x,
      List.mem_map]
  · intro h
    subst h
    have hfd : firstDedup ([] : List (List Char)) = [] := by
      simp [firstDedup]
    simp [categories, sortByCmp, hfd]

/-- Witness for C7 at the empty catalog. -/
theorem c7_category_options_witness :
    categories [] = [ALL_CATEGORIES] :=
  (c7_category_options []).2.2.2.2 rfl

/-- C1 counterexample: with category keys "a2" and "a10", the numeric
case-folded comparator sorts the "a2" record first, but the grouped view
orders its partitions with the plain comparator, which puts "a10" first —
so flattening the grouped view differs from the sorted sequence. -/
theorem c1_category_flatten_counterexample :
    flattenGroups (grouped (normalizedList
      [ ⟨"x".data, "https://s1.huny.dev".data, none, some "a2".data, none⟩,
        ⟨"y".data, "https://s2.huny.dev".data, none, some "a10".data, none⟩ ]
      [] ALL_CATEGORIES .category)) ≠
    normalizedList
      [ ⟨"x".data, "https://s1.huny.dev".data, none, some "a2".data, none⟩,
        ⟨"y".data, "https://s2.huny.dev".data, none, some "a10".data, none⟩ ]
      [] ALL_CATEGORIES .category := by decide

/-- C1 (amended): under the category-then-name sort mode, flattening the
grouped view reproduces the sorted sequence whenever records with equal
CategoryKeys are contiguous in the sorted sequence and the distinct
CategoryKeys, in order of first appearance, are already sorted by the
plain comparator used to order the partitions; without those conditions
(the numeric case-folded sort comparator and the plain partition
comparator may disagree) only a permutation is guaranteed. -/
theorem c1_category_flatten (apps : List AppItem) (query catFilter : List Char)
    (hchunk : (destutterKeys
      ((normalizedList apps query catFilter .category).map catKeyRaw)).Nodup)
    (hkeys : sortByCmp plainCmp
        (groupKeys (normalizedList apps query catFilter .category)) =
      groupKeys (normalizedList apps query catFilter .category)) :
    flattenGroups (grouped (normalizedList apps query catFilter .category)) =
      normalizedList apps query catFilter .category := by
  set s := normalizedList apps query catFilter .category with hs
  rw [flattenGroups, grouped, hkeys, groupKeys_eq, List.map_map]
  have hmap : ((firstDedup (s.map catKeyRaw)).map
      (Prod.snd ∘ fun k => (k, lookupGroup k (groupedPairs s)))) =
      (firstDedup (s.map catKeyRaw)).map (keyFilter s) := by
    apply List.map_congr_left
    intro k hk
    show lookupGroup k (groupedPairs s) = keyFilter s k
    rw [groupedPairs_eq, lookupGroup_map, if_pos hk]
  rw [hmap]
  exact flatten_keyFilter_eq s.length s (Nat.le_refl _) hchunk

/-- Witness for C1 (amended) at the built-in catalog, whose category keys
are contiguous and already plain-sorted. -/
theorem c1_category_flatten_witness :
    (destutterKeys
      ((normalizedList FALLBACK_APPS [] ALL_CATEGORIES .category).map catKeyRaw)).Nodup
    ∧ sortByCmp plainCmp
        (groupKeys (normalizedList FALLBACK_APPS [] ALL_CATEGORIES .category)) =
      groupKeys (normalizedList FALLBACK_APPS [] ALL_CATEGORIES .category)
    ∧ flattenGroups (grouped (normalizedList FALLBACK_APPS [] ALL_CATEGORIES .category)) =
        normalizedList FALLBACK_APPS [] ALL_CATEGORIES .category :=
  ⟨by decide, by decide,
    c1_category_flatten FALLBACK_APPS [] ALL_CATEGORIES (by decide) (by decide)⟩
